import Mathlib

/-!
Verification development for the bit-checkers move-generation engine.

The engine packs an 8x8 boolean grid into a single 64-bit word (`BitGrid`,
from src/checkers/util/bit_grid.rs) and builds full board state from two
occupancy/king bitboard pairs (`Board`, from src/checkers/board.rs).
Machine integers (u64) are embedded as `Nat` with explicit reduction
modulo 2^64 exactly where the 64-bit word width matters; the panicking
construction path is embedded as an `Option`-returning function.
-/

/-! ## BitGrid: src/checkers/util/bit_grid.rs -/

def GRID_COLS : Nat := 8

def GRID_ROWS : Nat := 8

def GRID_SIZE : Nat := GRID_COLS * GRID_ROWS

/-- The u64 word width used by the packed representation. -/
def U64_SIZE : Nat := 2 ^ 64

/-- Fixed 8x8 grid of bool values packed into a u64 (row-major, index = x + y*8). -/
structure BitGrid where
  data : Nat
deriving DecidableEq, Repr

/-- `BitGrid::new`: all values false. -/
def BitGrid.new : BitGrid := ⟨0⟩

/-- `BitGrid::new_from_mask`: construct from a raw u64 mask; bit i of the mask is cell i. -/
def BitGrid.new_from_mask (data : Nat) : BitGrid := ⟨data⟩

/-- `BitGrid::index_mask`: `1 << index` at u64 width (so 0 once the bit leaves the word). -/
def BitGrid.index_mask (index : Nat) : Nat := (1 <<< index) % U64_SIZE

/-- `BitGrid::index_of_cell`: `x + y * GRID_COLS`. -/
def BitGrid.index_of_cell (x y : Nat) : Nat := x + y * GRID_COLS

/-- `BitGrid::cell_at_index`: `(index % GRID_ROWS, index / GRID_ROWS)`. -/
def BitGrid.cell_at_index (index : Nat) : Nat × Nat := (index % GRID_ROWS, index / GRID_ROWS)

/-- `BitGrid::get_at_index`: `self.data & index_mask(index) != 0`. -/
def BitGrid.get_at_index (g : BitGrid) (index : Nat) : Bool :=
  g.data &&& BitGrid.index_mask index != 0

/-- `BitGrid::get_at_cell`. -/
def BitGrid.get_at_cell (g : BitGrid) (x y : Nat) : Bool :=
  g.get_at_index (BitGrid.index_of_cell x y)

/-- `BitGrid::set_at_index`: or in the mask, or and with its u64 complement. -/
def BitGrid.set_at_index (g : BitGrid) (index : Nat) (value : Bool) : BitGrid :=
  ⟨if value then g.data ||| BitGrid.index_mask index
    else g.data &&& (BitGrid.index_mask index ^^^ (U64_SIZE - 1))⟩

/-- `BitGrid::set_at_cell`. -/
def BitGrid.set_at_cell (g : BitGrid) (x y : Nat) (value : Bool) : BitGrid :=
  g.set_at_index (BitGrid.index_of_cell x y) value

/-- `BitGrid::shift`: a single raw shift of the packed word by `rows*8 + cols`
(left when the directed amount is positive, right when negative); left shifts
are truncated at the u64 word width.  No edge clamping of any kind. -/
def BitGrid.shift (g : BitGrid) (rows cols : Int) : BitGrid :=
  let directed_amount : Int := rows * (GRID_COLS : Int) + cols
  let amount : Nat := directed_amount.natAbs
  ⟨if directed_amount < 0 then g.data >>> amount else (g.data <<< amount) % U64_SIZE⟩

/-- `BitGrid::intersect`: bitwise AND. -/
def BitGrid.intersect (g other : BitGrid) : BitGrid := ⟨g.data &&& other.data⟩

/-- `BitGrid::union`: bitwise OR. -/
def BitGrid.union (g other : BitGrid) : BitGrid := ⟨g.data ||| other.data⟩

/-- `BitGrid::negate`: bitwise complement at u64 width. -/
def BitGrid.negate (g : BitGrid) : BitGrid := ⟨g.data ^^^ (U64_SIZE - 1)⟩

/-- `BitGrid::none`: true iff no value is set. -/
def BitGrid.none (g : BitGrid) : Bool := g.data == 0

/-- `u64::trailing_zeros`, fueled: the fuel bounds the bit width scanned; with
fuel 64 this is exact for any u64 value (and returns 64 on 0, as in Rust). -/
def BitGrid.trailingZerosAux : Nat → Nat → Nat
  | 0, _ => 64
  | fuel + 1, data =>
    if data = 0 then 64
    else if data % 2 = 1 then 0
    else BitGrid.trailingZerosAux fuel (data / 2) + 1

/-- `u64::trailing_zeros` for a u64 word. -/
def BitGrid.trailing_zeros (data : Nat) : Nat := BitGrid.trailingZerosAux 64 data

/-- `SetIndexIterator`: repeatedly yield `trailing_zeros` of the word and clear the
lowest set bit (`x &= x - 1`).  The fuel bounds the number of extracted bits;
a u64 word has at most 64 set bits, so fuel 64 drains any u64 completely. -/
def BitGrid.setIndexesAux : Nat → Nat → List Nat
  | 0, _ => []
  | fuel + 1, data =>
    if data = 0 then []
    else BitGrid.trailing_zeros data :: BitGrid.setIndexesAux fuel (data &&& (data - 1))

/-- `BitGrid::iter_set_indexes`, materialised as the list of yielded indices. -/
def BitGrid.iter_set_indexes (g : BitGrid) : List Nat := BitGrid.setIndexesAux 64 g.data

/-- `BitGrid::iter_set_cells`: the set indices mapped through `cell_at_index`. -/
def BitGrid.iter_set_cells (g : BitGrid) : List (Nat × Nat) :=
  g.iter_set_indexes.map BitGrid.cell_at_index

/-! ## Board: src/checkers/board.rs -/

def BOARD_WIDTH : Nat := 8

def BOARD_HEIGHT : Nat := 8

def BOARD_MASK : Nat := 0x55AA55AA55AA55AA

inductive Player where
  | Player1
  | Player2
deriving DecidableEq, Repr

export Player (Player1 Player2)

/-- `Position(u32, u32)` value type. -/
structure Position where
  x : Nat
  y : Nat
deriving DecidableEq, Repr

/-- `Move { from, to }` value type. -/
structure Move where
  fromPos : Position
  toPos : Position
deriving DecidableEq, Repr

/-- `Piece { position, player, king }` value type. -/
structure Piece where
  position : Position
  player : Player
  king : Bool
deriving DecidableEq, Repr

/-- `Move::new`: the destination coordinates come from signed i32 addition cast
back to u32, so a negative coordinate wraps modulo 2^32. -/
def Move.new (f : Position) (offset : Int × Int) : Move :=
  { fromPos := ⟨f.x, f.y⟩
    toPos := ⟨(((f.x : Int) + offset.1) % (2 ^ 32 : Int)).toNat,
              (((f.y : Int) + offset.2) % (2 ^ 32 : Int)).toNat⟩ }

/-- `PlayerBoard`: occupancy bitboard plus the king subset. -/
structure PlayerBoard where
  all : BitGrid
  kings : BitGrid
deriving DecidableEq, Repr

/-- `Board`: one `PlayerBoard` per player. -/
structure Board where
  player1 : PlayerBoard
  player2 : PlayerBoard
deriving DecidableEq, Repr

/-- `Board::player_board`. -/
def Board.player_board (b : Board) (player : Player) : PlayerBoard :=
  match player with
  | Player1 => b.player1
  | Player2 => b.player2

/-- The write-back counterpart of `Board::player_board_mut`: replace the given
player's `PlayerBoard`. -/
def Board.set_player_board (b : Board) (player : Player) (pb : PlayerBoard) : Board :=
  match player with
  | Player1 => { b with player1 := pb }
  | Player2 => { b with player2 := pb }

/-- `Board::new`: initial position, three dark rows of men per side, no kings. -/
def Board.new : Board :=
  { player1 := { all := BitGrid.new_from_mask (((BOARD_MASK <<< 40) % U64_SIZE) >>> 40)
                 kings := BitGrid.new }
    player2 := { all := BitGrid.new_from_mask (((BOARD_MASK >>> 40) <<< 40) % U64_SIZE)
                 kings := BitGrid.new } }

/-- One iteration of the `Board::new_with_pieces` loop: the `assert!` that fires
when the piece's player already occupies the position is embedded as `none`. -/
def Board.addPiece (b : Board) (piece : Piece) : Option Board :=
  let player_board := b.player_board piece.player
  let x := piece.position.x
  let y := piece.position.y
  if player_board.all.get_at_cell x y then Option.none
  else
    Option.some (b.set_player_board piece.player
      { all := player_board.all.set_at_cell x y true
        kings := if piece.king then player_board.kings.set_at_cell x y true
                 else player_board.kings })

/-- The `Board::new_with_pieces` loop over the piece sequence. -/
def Board.newWithPiecesGo (b : Board) : List Piece → Option Board
  | [] => Option.some b
  | piece :: rest =>
    match Board.addPiece b piece with
    | Option.none => Option.none
    | Option.some b' => Board.newWithPiecesGo b' rest

/-- `Board::new_with_pieces`: build a board from a piece list; `none` models the
panic of the duplicate-position assertion. -/
def Board.new_with_pieces (pieces : List Piece) : Option Board :=
  Board.newWithPiecesGo
    { player1 := { all := BitGrid.new, kings := BitGrid.new }
      player2 := { all := BitGrid.new, kings := BitGrid.new } }
    pieces

/-- `Board::move_piece`: move the player's `all` flag from `from` to `to`, and
move (or create, on reaching the far row) the king flag. -/
def Board.move_piece (b : Board) (player : Player) (m : Move) : Board :=
  let player_board := b.player_board player
  let all' := (player_board.all.set_at_cell m.fromPos.x m.fromPos.y false).set_at_cell
    m.toPos.x m.toPos.y true
  let kings' :=
    if player_board.kings.get_at_cell m.fromPos.x m.fromPos.y
        || (player == Player1 && m.toPos.y == BOARD_HEIGHT - 1)
        || (player == Player2 && m.toPos.y == 0) then
      (player_board.kings.set_at_cell m.fromPos.x m.fromPos.y false).set_at_cell
        m.toPos.x m.toPos.y true
    else player_board.kings
  b.set_player_board player { all := all', kings := kings' }

/-- `Board::empty_squares`: valid (dark) squares occupied by neither player. -/
def Board.empty_squares (b : Board) : BitGrid :=
  ((b.player1.all.union b.player2.all).negate).intersect (BitGrid.new_from_mask BOARD_MASK)

/-- `Board::downward_moving`: pieces of the player that may move towards y+. -/
def Board.downward_moving (b : Board) (player : Player) : BitGrid :=
  match player with
  | Player1 => b.player1.all
  | Player2 => b.player2.kings

/-- `Board::upward_moving`: pieces of the player that may move towards y-. -/
def Board.upward_moving (b : Board) (player : Player) : BitGrid :=
  match player with
  | Player1 => b.player1.kings
  | Player2 => b.player2.all

/-- The `get_moves` closure of `Board::normal_moves`. -/
def Board.get_moves (b : Board) (moving : BitGrid) (vertical horizontal : Int) : List Move :=
  (((b.empty_squares.shift (-vertical) (-horizontal)).intersect moving).iter_set_cells).map
    (fun c => Move.new ⟨c.1, c.2⟩ (horizontal, vertical))

/-- `Board::normal_moves`: the four direction lists chained in source order
(down-left, down-right, up-left, up-right). -/
def Board.normal_moves (b : Board) (player : Player) : List Move :=
  let downward_moving := b.downward_moving player
  let upward_moving := b.upward_moving player
  b.get_moves downward_moving 1 (-1) ++ b.get_moves downward_moving 1 1
    ++ b.get_moves upward_moving (-1) (-1) ++ b.get_moves upward_moving (-1) 1

/-- The `get_jumps` closure of `Board::jump_moves`. -/
def Board.get_jumps (b : Board) (moving opponents : BitGrid) (vertical horizontal : Int) :
    List Move :=
  ((((b.empty_squares.shift ((-vertical) * 2) ((-horizontal) * 2)).intersect
      (opponents.shift (-vertical) (-horizontal))).intersect moving).iter_set_cells).map
    (fun c => Move.new ⟨c.1, c.2⟩ (horizontal * 2, vertical * 2))

/-- `Board::jump_moves`: the four direction lists chained in source order. -/
def Board.jump_moves (b : Board) (player : Player) : List Move :=
  let downward_moving := b.downward_moving player
  let upward_moving := b.upward_moving player
  let opponents :=
    match player with
    | Player1 => b.player2.all
    | Player2 => b.player1.all
  b.get_jumps downward_moving opponents 1 (-1) ++ b.get_jumps downward_moving opponents 1 1
    ++ b.get_jumps upward_moving opponents (-1) (-1) ++ b.get_jumps upward_moving opponents (-1) 1

/-- `Board::winner`: Player1's occupancy is checked first. -/
def Board.winner (b : Board) : Option Player :=
  if b.player1.all.none then Option.some Player2
  else if b.player2.all.none then Option.some Player1
  else Option.none

/-- `Board::piece_at`: first match among P1 king, P1 man, P2 king, P2 man. -/
def Board.piece_at (b : Board) (position : Position) : Option Piece :=
  let x := position.x
  let y := position.y
  if b.player1.kings.get_at_cell x y then
    Option.some { position, player := Player1, king := true }
  else if b.player1.all.get_at_cell x y then
    Option.some { position, player := Player1, king := false }
  else if b.player2.kings.get_at_cell x y then
    Option.some { position, player := Player2, king := true }
  else if b.player2.all.get_at_cell x y then
    Option.some { position, player := Player2, king := false }
  else Option.none

/-! ## Bit-level lemmas about the packed representation -/

/-- A set bit of a number below `2 ^ w` lies below `w`. -/
theorem testBit_true_lt {data i w : Nat} (hlt : data < 2 ^ w) (h : data.testBit i = true) :
    i < w := by
  by_contra hcon
  have hlt' : data < 2 ^ i :=
    lt_of_lt_of_le hlt (Nat.pow_le_pow_right (by norm_num) (by omega))
  rw [Nat.testBit_eq_false_of_lt hlt'] at h
  exact Bool.false_ne_true h

/-- `trailingZerosAux` returns the position of the least set bit. -/
theorem BitGrid.trailingZerosAux_spec :
    ∀ (fuel data : Nat), data ≠ 0 → data < 2 ^ fuel →
      data.testBit (BitGrid.trailingZerosAux fuel data) = true ∧
        ∀ i < BitGrid.trailingZerosAux fuel data, data.testBit i = false := by
  intro fuel
  induction fuel with
  | zero => intro data h0 hlt; omega
  | succ fuel ih =>
    intro data h0 hlt
    have hunf : BitGrid.trailingZerosAux (fuel + 1) data =
        if data % 2 = 1 then 0 else BitGrid.trailingZerosAux fuel (data / 2) + 1 := by
      simp [BitGrid.trailingZerosAux, h0]
    by_cases hodd : data % 2 = 1
    · rw [hunf, if_pos hodd]
      refine ⟨?_, ?_⟩
      · rw [Nat.testBit_zero]; simp [hodd]
      · intro i hi; omega
    · rw [hunf, if_neg hodd]
      have hhalf0 : data / 2 ≠ 0 := by omega
      have hpow : 2 ^ (fuel + 1) = 2 ^ fuel * 2 := pow_succ 2 fuel
      have hhalflt : data / 2 < 2 ^ fuel := by omega
      obtain ⟨hbit, hmin⟩ := ih (data / 2) hhalf0 hhalflt
      refine ⟨?_, ?_⟩
      · rw [Nat.testBit_succ]; exact hbit
      · intro i hi
        cases i with
        | zero => rw [Nat.testBit_zero]; simp [hodd]
        | succ j => rw [Nat.testBit_succ]; exact hmin j (by omega)

/-- The least set bit of a 64-bit word, via `trailing_zeros`. -/
theorem BitGrid.trailing_zeros_spec (data : Nat) (h0 : data ≠ 0) (hlt : data < 2 ^ 64) :
    data.testBit (BitGrid.trailing_zeros data) = true ∧
      ∀ i < BitGrid.trailing_zeros data, data.testBit i = false :=
  BitGrid.trailingZerosAux_spec 64 data h0 hlt

/-- `x &&& (x - 1)` clears exactly the least set bit. -/
theorem land_pred_testBit :
    ∀ (fuel data : Nat), data ≠ 0 → data < 2 ^ fuel → ∀ i : Nat,
      (data &&& (data - 1)).testBit i =
        (data.testBit i && !decide (i = BitGrid.trailingZerosAux fuel data)) := by
  intro fuel
  induction fuel with
  | zero => intro data h0 hlt; omega
  | succ fuel ih =>
    intro data h0 hlt i
    have hunf : BitGrid.trailingZerosAux (fuel + 1) data =
        if data % 2 = 1 then 0 else BitGrid.trailingZerosAux fuel (data / 2) + 1 := by
      simp [BitGrid.trailingZerosAux, h0]
    by_cases hodd : data % 2 = 1
    · rw [hunf, if_pos hodd]
      cases i with
      | zero =>
        rw [Nat.testBit_land, Nat.testBit_zero, Nat.testBit_zero]
        have hde : (data - 1) % 2 = 0 := by omega
        simp [hde]
      | succ j =>
        rw [Nat.testBit_land, Nat.testBit_succ, Nat.testBit_succ]
        have hdiv : (data - 1) / 2 = data / 2 := by omega
        rw [hdiv]
        simp
    · rw [hunf, if_neg hodd]
      cases i with
      | zero =>
        rw [Nat.testBit_land, Nat.testBit_zero]
        simp [hodd]
      | succ j =>
        rw [Nat.testBit_land, Nat.testBit_succ, Nat.testBit_succ]
        have hdiv : (data - 1) / 2 = data / 2 - 1 := by omega
        rw [hdiv]
        have h1 : data / 2 ≠ 0 := by omega
        have hpow : 2 ^ (fuel + 1) = 2 ^ fuel * 2 := pow_succ 2 fuel
        have h2 : data / 2 < 2 ^ fuel := by omega
        have hih := ih (data / 2) h1 h2 j
        rw [Nat.testBit_land] at hih
        rw [hih]
        congr 1
        simp

/-- `land_pred_testBit` specialised to the 64-bit `trailing_zeros`. -/
theorem land_pred_testBit64 (data : Nat) (h0 : data ≠ 0) (hlt : data < 2 ^ 64) (i : Nat) :
    (data &&& (data - 1)).testBit i =
      (data.testBit i && !decide (i = BitGrid.trailing_zeros data)) :=
  land_pred_testBit 64 data h0 hlt i

/-- Clearing the least set bit strictly raises the least-set-bit position. -/
theorem trailing_zeros_land_pred_gt (data : Nat) (h0 : data ≠ 0) (hlt : data < 2 ^ 64) :
    BitGrid.trailing_zeros data < BitGrid.trailing_zeros (data &&& (data - 1)) := by
  have hspec := BitGrid.trailing_zeros_spec data h0 hlt
  have ht64 : BitGrid.trailing_zeros data < 64 := testBit_true_lt hlt hspec.1
  by_cases h0' : data &&& (data - 1) = 0
  · rw [h0']
    have h64 : BitGrid.trailing_zeros 0 = 64 := rfl
    omega
  · have hlt' : data &&& (data - 1) < 2 ^ 64 := lt_of_le_of_lt Nat.and_le_left hlt
    obtain ⟨hbit', _⟩ := BitGrid.trailing_zeros_spec _ h0' hlt'
    rw [land_pred_testBit64 data h0 hlt] at hbit'
    rcases Nat.lt_or_ge (BitGrid.trailing_zeros (data &&& (data - 1)))
        (BitGrid.trailing_zeros data) with hl | hg
    · rw [hspec.2 _ hl] at hbit'
      simp at hbit'
    · rcases Nat.eq_or_lt_of_le hg with he | hgt
      · rw [← he] at hbit'
        simp at hbit'
      · exact hgt

/-- Prepending the least satisfying element: filtering a range by `f` equals `t`
followed by filtering by `f` with `t` removed. -/
theorem range_filter_eq_cons (f g : Nat → Bool) (t : Nat) :
    ∀ n : Nat, t < n → f t = true → (∀ i < t, f i = false) →
      (∀ i, g i = (f i && !decide (i = t))) →
      (List.range n).filter f = t :: (List.range n).filter g := by
  intro n
  induction n with
  | zero => omega
  | succ n ih =>
    intro htn hft hlow hg
    rw [List.range_succ, List.filter_append, List.filter_append]
    by_cases hcase : t < n
    · rw [ih hcase hft hlow hg]
      have hsing : List.filter f [n] = List.filter g [n] := by
        have hne : ¬(n = t) := by omega
        simp [List.filter_cons, hg, hne]
      rw [hsing, List.cons_append]
    · have hteq : t = n := by omega
      subst hteq
      have h1 : List.filter f (List.range t) = [] := by
        rw [List.filter_eq_nil_iff]
        intro a ha
        rw [List.mem_range] at ha
        simp [hlow a ha]
      have h2 : List.filter g (List.range t) = [] := by
        rw [List.filter_eq_nil_iff]
        intro a ha
        rw [List.mem_range] at ha
        simp [hg, hlow a ha]
      have h3 : List.filter f [t] = [t] := by simp [List.filter_cons, hft]
      have h4 : List.filter g [t] = [] := by simp [List.filter_cons, hg]
      rw [h1, h2, h3, h4]
      simp

/-- The lowest-set-bit extraction loop enumerates the set bits of a u64 word in
ascending order. -/
theorem setIndexesAux_eq_filter :
    ∀ data : Nat, data < 2 ^ 64 → ∀ fuel : Nat, 64 ≤ fuel + BitGrid.trailing_zeros data →
      BitGrid.setIndexesAux fuel data = (List.range 64).filter (fun i => data.testBit i) := by
  intro data
  induction data using Nat.strong_induction_on with
  | _ data ih =>
    intro hlt fuel hfuel
    by_cases h0 : data = 0
    · subst h0
      cases fuel with
      | zero => simp [BitGrid.setIndexesAux, Nat.zero_testBit]
      | succ f => simp [BitGrid.setIndexesAux, Nat.zero_testBit]
    · have hspec := BitGrid.trailing_zeros_spec data h0 hlt
      have ht64 : BitGrid.trailing_zeros data < 64 := testBit_true_lt hlt hspec.1
      cases fuel with
      | zero => omega
      | succ f =>
        rw [BitGrid.setIndexesAux, if_neg h0]
        have hd'lt : data &&& (data - 1) < data := by
          have hle : data &&& (data - 1) ≤ data - 1 := Nat.and_le_right
          omega
        have hd'64 : data &&& (data - 1) < 2 ^ 64 := lt_of_le_of_lt Nat.and_le_left hlt
        have hfuel' : 64 ≤ f + BitGrid.trailing_zeros (data &&& (data - 1)) := by
          have := trailing_zeros_land_pred_gt data h0 hlt
          omega
        rw [ih _ hd'lt hd'64 f hfuel']
        exact (range_filter_eq_cons (fun i => data.testBit i)
          (fun i => (data &&& (data - 1)).testBit i) (BitGrid.trailing_zeros data) 64 ht64
          hspec.1 hspec.2 (fun i => land_pred_testBit64 data h0 hlt i)).symm

/-- `iter_set_indexes` is the ascending list of set-bit indices. -/
theorem BitGrid.iter_set_indexes_eq_filter (g : BitGrid) (h : g.data < 2 ^ 64) :
    g.iter_set_indexes = (List.range 64).filter (fun i => g.data.testBit i) :=
  setIndexesAux_eq_filter g.data h 64 (by omega)

/-- Membership in `iter_set_indexes` is exactly a set bit (below the word width). -/
theorem BitGrid.mem_iter_set_indexes (g : BitGrid) (h : g.data < 2 ^ 64) (i : Nat) :
    i ∈ g.iter_set_indexes ↔ i < 64 ∧ g.data.testBit i = true := by
  rw [BitGrid.iter_set_indexes_eq_filter g h]
  simp [List.mem_filter, List.mem_range]

/-- `index_mask` is the single bit `index` of the word (and zero past the width). -/
theorem BitGrid.testBit_index_mask (idx j : Nat) :
    (BitGrid.index_mask idx).testBit j = (decide (j < 64) && decide (idx = j)) := by
  unfold BitGrid.index_mask U64_SIZE
  rw [Nat.one_shiftLeft, Nat.testBit_mod_two_pow, Nat.testBit_two_pow]

/-- `get_at_index` reads the bit at a valid index. -/
theorem BitGrid.get_at_index_eq_testBit (g : BitGrid) (i : Nat) (hi : i < 64) :
    g.get_at_index i = g.data.testBit i := by
  unfold BitGrid.get_at_index BitGrid.index_mask U64_SIZE
  have h1 : (1 <<< i) % 2 ^ 64 = 2 ^ i := by
    rw [Nat.one_shiftLeft]
    exact Nat.mod_eq_of_lt (Nat.pow_lt_pow_right (by norm_num) hi)
  rw [h1, Nat.and_two_pow]
  cases hb : g.data.testBit i <;> simp [hb]

/-- `get_at_cell` reads the bit at `x + y*8` for in-range coordinates. -/
theorem BitGrid.get_at_cell_eq_testBit (g : BitGrid) (x y : Nat) (hx : x < 8) (hy : y < 8) :
    g.get_at_cell x y = g.data.testBit (x + y * 8) := by
  unfold BitGrid.get_at_cell BitGrid.index_of_cell GRID_COLS
  exact BitGrid.get_at_index_eq_testBit g _ (by omega)

/-- The subset order on bitboards, as the source would state it: intersecting
with the superset leaves the subset unchanged. -/
def BitGrid.subset (g1 g2 : BitGrid) : Prop := g1.data &&& g2.data = g1.data

instance (g1 g2 : BitGrid) : Decidable (BitGrid.subset g1 g2) :=
  inferInstanceAs (Decidable (g1.data &&& g2.data = g1.data))

/-- Bitwise reading of `BitGrid.subset`. -/
theorem BitGrid.subset_testBit {g1 g2 : BitGrid} :
    BitGrid.subset g1 g2 ↔ ∀ i, g1.data.testBit i = true → g2.data.testBit i = true := by
  constructor
  · intro h i h1
    have h2 := congrArg (fun n => n.testBit i) h
    simp only [Nat.testBit_land] at h2
    rw [h1] at h2
    simpa using h2.symm
  · intro h
    apply Nat.eq_of_testBit_eq
    intro i
    rw [Nat.testBit_land]
    cases h1 : g1.data.testBit i
    · simp
    · simp [h i h1]

/-- `BitGrid.subset` is transitive. -/
theorem BitGrid.subset_trans {g1 g2 g3 : BitGrid}
    (h12 : BitGrid.subset g1 g2) (h23 : BitGrid.subset g2 g3) : BitGrid.subset g1 g3 :=
  BitGrid.subset_testBit.mpr fun i hi =>
    BitGrid.subset_testBit.mp h23 i (BitGrid.subset_testBit.mp h12 i hi)

/-- The checkerboard mask holds exactly the dark cells. -/
theorem BOARD_MASK_testBit : ∀ i < 64, BOARD_MASK.testBit i = decide ((i % 8 + i / 8) % 2 = 1) := by
  decide

/-- A sub-bitboard of the checkerboard mask has set bits only at dark in-word cells. -/
theorem subset_mask_dark {g : BitGrid}
    (h : BitGrid.subset g (BitGrid.new_from_mask BOARD_MASK)) :
    ∀ i, g.data.testBit i = true → i < 64 ∧ (i % 8 + i / 8) % 2 = 1 := by
  intro i hi
  have hm : BOARD_MASK.testBit i = true := BitGrid.subset_testBit.mp h i hi
  have hlt : i < 64 := testBit_true_lt (by norm_num [BOARD_MASK]) hm
  rw [BOARD_MASK_testBit i hlt] at hm
  exact ⟨hlt, of_decide_eq_true hm⟩

/-- A sub-bitboard of the checkerboard mask is a genuine u64 word. -/
theorem subset_mask_lt {g : BitGrid}
    (h : BitGrid.subset g (BitGrid.new_from_mask BOARD_MASK)) : g.data < 2 ^ 64 := by
  have h1 : g.data &&& BOARD_MASK ≤ BOARD_MASK := Nat.and_le_right
  have h2 : g.data &&& BOARD_MASK = g.data := h
  have h3 : BOARD_MASK < 2 ^ 64 := by norm_num [BOARD_MASK]
  omega

/-- `empty_squares` is a sub-bitboard of the checkerboard mask. -/
theorem Board.empty_squares_subset_mask (b : Board) :
    BitGrid.subset b.empty_squares (BitGrid.new_from_mask BOARD_MASK) := by
  apply Nat.eq_of_testBit_eq
  intro i
  show (((b.player1.all.union b.player2.all).negate.data &&& BOARD_MASK) &&& BOARD_MASK).testBit i
    = ((b.player1.all.union b.player2.all).negate.data &&& BOARD_MASK).testBit i
  rw [Nat.testBit_land, Nat.testBit_land]
  cases hm : BOARD_MASK.testBit i <;> simp [hm]

/-- `empty_squares` fits in the u64 word. -/
theorem Board.empty_squares_lt (b : Board) : b.empty_squares.data < 2 ^ 64 :=
  subset_mask_lt (Board.empty_squares_subset_mask b)

/-- Bitwise reading of `empty_squares`: dark and occupied by neither player. -/
theorem Board.empty_squares_testBit (b : Board) (k : Nat) (hk : k < 64) :
    b.empty_squares.data.testBit k =
      (!(b.player1.all.data.testBit k || b.player2.all.data.testBit k)
        && BOARD_MASK.testBit k) := by
  show ((((b.player1.all.data ||| b.player2.all.data) ^^^ (U64_SIZE - 1))
      &&& BOARD_MASK).testBit k) = _
  unfold U64_SIZE
  rw [Nat.testBit_land, Nat.testBit_xor, Nat.testBit_lor, Nat.testBit_two_pow_sub_one]
  simp [hk, Bool.xor_true]

/-- A right shift keeps the word inside the u64 range; a left shift is reduced. -/
theorem BitGrid.shift_lt (g : BitGrid) (h : g.data < 2 ^ 64) (rows cols : Int) :
    (g.shift rows cols).data < 2 ^ 64 := by
  unfold BitGrid.shift U64_SIZE
  dsimp only
  split
  · calc g.data >>> (rows * (GRID_COLS : Int) + cols).natAbs
        = g.data / 2 ^ (rows * (GRID_COLS : Int) + cols).natAbs := Nat.shiftRight_eq_div_pow _ _
      _ ≤ g.data := Nat.div_le_self _ _
      _ < 2 ^ 64 := h
  · exact Nat.mod_lt _ (by positivity)

/-- Bit `i` of a shifted word is bit `i - directedAmount` of the original word:
the characterisation of the raw wraparound-free shift at word level. -/
theorem BitGrid.testBit_shift (g : BitGrid) (rows cols : Int)
    (i : Nat) (hi : i < 64) :
    ((g.shift rows cols).data.testBit i = true ↔
      ∃ k : Nat, (k : Int) = (i : Int) - (rows * 8 + cols) ∧ g.data.testBit k = true) := by
  unfold BitGrid.shift U64_SIZE
  dsimp only
  have hd8 : rows * (GRID_COLS : Int) + cols = rows * 8 + cols := by norm_num [GRID_COLS]
  rw [hd8]
  split
  case isTrue hneg =>
    rw [Nat.testBit_shiftRight]
    constructor
    · intro h
      exact ⟨(rows * 8 + cols).natAbs + i, by omega, h⟩
    · rintro ⟨k, hk, hbit⟩
      have hke : k = (rows * 8 + cols).natAbs + i := by omega
      rwa [hke] at hbit
  case isFalse hpos =>
    rw [Nat.testBit_mod_two_pow, Nat.testBit_shiftLeft]
    constructor
    · intro h
      simp only [Bool.and_eq_true, decide_eq_true_eq] at h
      exact ⟨i - (rows * 8 + cols).natAbs, by omega, h.2.2⟩
    · rintro ⟨k, hk, hbit⟩
      have hke : k = i - (rows * 8 + cols).natAbs := by omega
      have hge : i ≥ (rows * 8 + cols).natAbs := by omega
      simp only [Bool.and_eq_true, decide_eq_true_eq]
      exact ⟨hi, hge, by rwa [← hke]⟩

/-- Core geometric fact: if origin cell `i` and landing cell `k` are both dark
in-word cells and `k` sits one or two diagonal steps from `i` at word level,
then the landing coordinates never wrap at a board edge, and the emitted move
is on-grid with an empty dark destination. -/
theorem move_emit_ok (b : Board) (i k : Nat) (dx dy : Int)
    (hdir : ((dx = 1 ∨ dx = -1) ∧ (dy = 1 ∨ dy = -1))
      ∨ ((dx = 2 ∨ dx = -2) ∧ (dy = 2 ∨ dy = -2)))
    (hi64 : i < 64) (hk64 : k < 64)
    (hk : (k : Int) = (i : Int) + dy * 8 + dx)
    (hidark : (i % 8 + i / 8) % 2 = 1) (hkdark : (k % 8 + k / 8) % 2 = 1)
    (hocc1 : b.player1.all.data.testBit k = false)
    (hocc2 : b.player2.all.data.testBit k = false) :
    (Move.new ⟨i % 8, i / 8⟩ (dx, dy)).fromPos.x < 8 ∧
    (Move.new ⟨i % 8, i / 8⟩ (dx, dy)).fromPos.y < 8 ∧
    (Move.new ⟨i % 8, i / 8⟩ (dx, dy)).toPos.x < 8 ∧
    (Move.new ⟨i % 8, i / 8⟩ (dx, dy)).toPos.y < 8 ∧
    ¬((Move.new ⟨i % 8, i / 8⟩ (dx, dy)).toPos.x % 2
        = (Move.new ⟨i % 8, i / 8⟩ (dx, dy)).toPos.y % 2) ∧
    b.player1.all.get_at_cell (Move.new ⟨i % 8, i / 8⟩ (dx, dy)).toPos.x
      (Move.new ⟨i % 8, i / 8⟩ (dx, dy)).toPos.y = false ∧
    b.player2.all.get_at_cell (Move.new ⟨i % 8, i / 8⟩ (dx, dy)).toPos.x
      (Move.new ⟨i % 8, i / 8⟩ (dx, dy)).toPos.y = false := by
  obtain ⟨x, y, p, hx, hy, rfl, hpxy⟩ :
      ∃ x y p, x < 8 ∧ y < 8 ∧ i = x + 8 * y ∧ x + y = 2 * p + 1 :=
    ⟨i % 8, i / 8, (i % 8 + i / 8) / 2, by omega, by omega, by omega, by omega⟩
  obtain ⟨u, w, q, hu, hw, rfl, hpuw⟩ :
      ∃ u w q, u < 8 ∧ w < 8 ∧ k = u + 8 * w ∧ u + w = 2 * q + 1 :=
    ⟨k % 8, k / 8, (k % 8 + k / 8) / 2, by omega, by omega, by omega, by omega⟩
  clear hidark hkdark hi64 hk64
  have hm1 : (x + 8 * y) % 8 = x := by omega
  have hm2 : (x + 8 * y) / 8 = y := by omega
  rw [hm1, hm2]
  have hxb : 0 ≤ (x : Int) + dx ∧ (x : Int) + dx < 8 ∧
      0 ≤ (y : Int) + dy ∧ (y : Int) + dy < 8 := by
    rcases hdir with ⟨hdx | hdx, hdy | hdy⟩ | ⟨hdx | hdx, hdy | hdy⟩ <;>
      subst hdx <;> subst hdy <;> omega
  have htx : (((Move.new ⟨x, y⟩ (dx, dy)).toPos.x : Nat) : Int) = (x : Int) + dx := by
    show ((((x : Int) + dx) % (2 ^ 32 : Int)).toNat : Int) = _
    rw [Int.emod_eq_of_lt hxb.1 (by omega)]
    exact Int.toNat_of_nonneg hxb.1
  have hty : (((Move.new ⟨x, y⟩ (dx, dy)).toPos.y : Nat) : Int) = (y : Int) + dy := by
    show ((((y : Int) + dy) % (2 ^ 32 : Int)).toNat : Int) = _
    rw [Int.emod_eq_of_lt hxb.2.2.1 (by omega)]
    exact Int.toNat_of_nonneg hxb.2.2.1
  have hfx : (Move.new ⟨x, y⟩ (dx, dy)).fromPos.x = x := rfl
  have hfy : (Move.new ⟨x, y⟩ (dx, dy)).fromPos.y = y := rfl
  have htx8 : (Move.new ⟨x, y⟩ (dx, dy)).toPos.x < 8 := by omega
  have hty8 : (Move.new ⟨x, y⟩ (dx, dy)).toPos.y < 8 := by omega
  have hidx : (Move.new ⟨x, y⟩ (dx, dy)).toPos.x
      + (Move.new ⟨x, y⟩ (dx, dy)).toPos.y * 8 = u + 8 * w := by omega
  refine ⟨by omega, by omega, htx8, hty8, by omega, ?_, ?_⟩
  · rw [BitGrid.get_at_cell_eq_testBit _ _ _ htx8 hty8, hidx]
    exact hocc1
  · rw [BitGrid.get_at_cell_eq_testBit _ _ _ htx8 hty8, hidx]
    exact hocc2

/-- Every move emitted by one `normal_moves` direction pass is on-grid and lands
on an empty dark cell, provided the movers bitboard lies inside the mask. -/
theorem Board.get_moves_safe (b : Board) (moving : BitGrid)
    (hmov : BitGrid.subset moving (BitGrid.new_from_mask BOARD_MASK))
    (vert horz : Int) (hv : vert = 1 ∨ vert = -1) (hh : horz = 1 ∨ horz = -1) :
    ∀ m ∈ b.get_moves moving vert horz,
      m.fromPos.x < 8 ∧ m.fromPos.y < 8 ∧ m.toPos.x < 8 ∧ m.toPos.y < 8 ∧
        ¬(m.toPos.x % 2 = m.toPos.y % 2) ∧
        b.player1.all.get_at_cell m.toPos.x m.toPos.y = false ∧
        b.player2.all.get_at_cell m.toPos.x m.toPos.y = false := by
  intro m hm
  unfold Board.get_moves BitGrid.iter_set_cells at hm
  rw [List.map_map, List.mem_map] at hm
  obtain ⟨i, hi, rfl⟩ := hm
  have hshift64 := BitGrid.shift_lt b.empty_squares (Board.empty_squares_lt b) (-vert) (-horz)
  have hglt : ((b.empty_squares.shift (-vert) (-horz)).intersect moving).data < 2 ^ 64 := by
    have h1 : (b.empty_squares.shift (-vert) (-horz)).data &&& moving.data
        ≤ (b.empty_squares.shift (-vert) (-horz)).data := Nat.and_le_left
    show (b.empty_squares.shift (-vert) (-horz)).data &&& moving.data < 2 ^ 64
    omega
  rw [BitGrid.mem_iter_set_indexes _ hglt i] at hi
  obtain ⟨hi64, hbit⟩ := hi
  rw [show ((b.empty_squares.shift (-vert) (-horz)).intersect moving).data
      = (b.empty_squares.shift (-vert) (-horz)).data &&& moving.data from rfl,
    Nat.testBit_land, Bool.and_eq_true] at hbit
  obtain ⟨hshift, hmovbit⟩ := hbit
  obtain ⟨-, hidark⟩ := subset_mask_dark hmov i hmovbit
  rw [BitGrid.testBit_shift _ (-vert) (-horz) i hi64] at hshift
  obtain ⟨k, hk, hkbit⟩ := hshift
  obtain ⟨hk64, hkdark⟩ := subset_mask_dark (Board.empty_squares_subset_mask b) k hkbit
  rw [Board.empty_squares_testBit b k hk64, Bool.and_eq_true] at hkbit
  obtain ⟨hnocc, -⟩ := hkbit
  have hocc : b.player1.all.data.testBit k = false ∧ b.player2.all.data.testBit k = false := by
    cases h1 : b.player1.all.data.testBit k <;> cases h2 : b.player2.all.data.testBit k <;>
      simp [h1, h2] at hnocc ⊢
  have hk' : (k : Int) = (i : Int) + vert * 8 + horz := by omega
  exact move_emit_ok b i k horz vert (Or.inl ⟨hh, hv⟩) hi64 hk64 hk' hidark hkdark hocc.1 hocc.2

/-- Every move emitted by one `jump_moves` direction pass is on-grid and lands
on an empty dark cell, provided the movers bitboard lies inside the mask. -/
theorem Board.get_jumps_safe (b : Board) (moving opponents : BitGrid)
    (hmov : BitGrid.subset moving (BitGrid.new_from_mask BOARD_MASK))
    (vert horz : Int) (hv : vert = 1 ∨ vert = -1) (hh : horz = 1 ∨ horz = -1) :
    ∀ m ∈ b.get_jumps moving opponents vert horz,
      m.fromPos.x < 8 ∧ m.fromPos.y < 8 ∧ m.toPos.x < 8 ∧ m.toPos.y < 8 ∧
        ¬(m.toPos.x % 2 = m.toPos.y % 2) ∧
        b.player1.all.get_at_cell m.toPos.x m.toPos.y = false ∧
        b.player2.all.get_at_cell m.toPos.x m.toPos.y = false := by
  intro m hm
  unfold Board.get_jumps BitGrid.iter_set_cells at hm
  rw [List.map_map, List.mem_map] at hm
  obtain ⟨i, hi, rfl⟩ := hm
  have hesh := BitGrid.shift_lt b.empty_squares (Board.empty_squares_lt b)
    ((-vert) * 2) ((-horz) * 2)
  have hglt : (((b.empty_squares.shift ((-vert) * 2) ((-horz) * 2)).intersect
      (opponents.shift (-vert) (-horz))).intersect moving).data < 2 ^ 64 := by
    have h1 : ((b.empty_squares.shift ((-vert) * 2) ((-horz) * 2)).data
        &&& (opponents.shift (-vert) (-horz)).data) &&& moving.data
        ≤ (b.empty_squares.shift ((-vert) * 2) ((-horz) * 2)).data
          &&& (opponents.shift (-vert) (-horz)).data := Nat.and_le_left
    have h2 : (b.empty_squares.shift ((-vert) * 2) ((-horz) * 2)).data
        &&& (opponents.shift (-vert) (-horz)).data
        ≤ (b.empty_squares.shift ((-vert) * 2) ((-horz) * 2)).data := Nat.and_le_left
    show ((b.empty_squares.shift ((-vert) * 2) ((-horz) * 2)).data
        &&& (opponents.shift (-vert) (-horz)).data) &&& moving.data < 2 ^ 64
    omega
  rw [BitGrid.mem_iter_set_indexes _ hglt i] at hi
  obtain ⟨hi64, hbit⟩ := hi
  rw [show (((b.empty_squares.shift ((-vert) * 2) ((-horz) * 2)).intersect
        (opponents.shift (-vert) (-horz))).intersect moving).data
      = ((b.empty_squares.shift ((-vert) * 2) ((-horz) * 2)).data
        &&& (opponents.shift (-vert) (-horz)).data) &&& moving.data from rfl,
    Nat.testBit_land, Nat.testBit_land, Bool.and_eq_true, Bool.and_eq_true] at hbit
  obtain ⟨⟨hshift, -⟩, hmovbit⟩ := hbit
  obtain ⟨-, hidark⟩ := subset_mask_dark hmov i hmovbit
  rw [BitGrid.testBit_shift _ ((-vert) * 2) ((-horz) * 2) i hi64] at hshift
  obtain ⟨k, hk, hkbit⟩ := hshift
  obtain ⟨hk64, hkdark⟩ := subset_mask_dark (Board.empty_squares_subset_mask b) k hkbit
  rw [Board.empty_squares_testBit b k hk64, Bool.and_eq_true] at hkbit
  obtain ⟨hnocc, -⟩ := hkbit
  have hocc : b.player1.all.data.testBit k = false ∧ b.player2.all.data.testBit k = false := by
    cases h1 : b.player1.all.data.testBit k <;> cases h2 : b.player2.all.data.testBit k <;>
      simp [h1, h2] at hnocc ⊢
  have hk' : (k : Int) = (i : Int) + (vert * 2) * 8 + horz * 2 := by omega
  have hdx2 : horz * 2 = 2 ∨ horz * 2 = -2 := by rcases hh with rfl | rfl <;> norm_num
  have hdy2 : vert * 2 = 2 ∨ vert * 2 = -2 := by rcases hv with rfl | rfl <;> norm_num
  exact move_emit_ok b i k (horz * 2) (vert * 2) (Or.inr ⟨hdx2, hdy2⟩) hi64 hk64 hk'
    hidark hkdark hocc.1 hocc.2

/-! ## Claim C1: wraparound never survives the masking -/

/-- **C1 (amended)**: on a Board whose occupancy bitboards are disjoint subsets
of the 32 dark cells and whose king bitboards are subsets of the occupancies,
every move produced by `normal_moves` or `jump_moves`, for either player, has
from and to inside the 8x8 grid, and its to cell is an empty dark cell — the
word-level wraparound of the raw shift never survives the masking. -/
theorem c1_moves_stay_on_empty_dark_cells (b : Board)
    (_hdisj : b.player1.all.data &&& b.player2.all.data = 0)
    (hsub1 : BitGrid.subset b.player1.all (BitGrid.new_from_mask BOARD_MASK))
    (hsub2 : BitGrid.subset b.player2.all (BitGrid.new_from_mask BOARD_MASK))
    (hkings1 : BitGrid.subset b.player1.kings b.player1.all)
    (hkings2 : BitGrid.subset b.player2.kings b.player2.all) :
    ∀ (player : Player) (m : Move),
      m ∈ b.normal_moves player ∨ m ∈ b.jump_moves player →
      m.fromPos.x < 8 ∧ m.fromPos.y < 8 ∧ m.toPos.x < 8 ∧ m.toPos.y < 8 ∧
        ¬(m.toPos.x % 2 = m.toPos.y % 2) ∧
        b.player1.all.get_at_cell m.toPos.x m.toPos.y = false ∧
        b.player2.all.get_at_cell m.toPos.x m.toPos.y = false := by
  have hdm : ∀ pl, BitGrid.subset (b.downward_moving pl) (BitGrid.new_from_mask BOARD_MASK) := by
    intro pl
    cases pl
    · exact hsub1
    · exact BitGrid.subset_trans hkings2 hsub2
  have hum : ∀ pl, BitGrid.subset (b.upward_moving pl) (BitGrid.new_from_mask BOARD_MASK) := by
    intro pl
    cases pl
    · exact BitGrid.subset_trans hkings1 hsub1
    · exact hsub2
  intro player m hm
  rcases hm with hm | hm
  · unfold Board.normal_moves at hm
    simp only [List.mem_append] at hm
    rcases hm with ((h | h) | h) | h
    · exact Board.get_moves_safe b _ (hdm player) 1 (-1) (Or.inl rfl) (Or.inr rfl) m h
    · exact Board.get_moves_safe b _ (hdm player) 1 1 (Or.inl rfl) (Or.inl rfl) m h
    · exact Board.get_moves_safe b _ (hum player) (-1) (-1) (Or.inr rfl) (Or.inr rfl) m h
    · exact Board.get_moves_safe b _ (hum player) (-1) 1 (Or.inr rfl) (Or.inl rfl) m h
  · unfold Board.jump_moves at hm
    simp only [List.mem_append] at hm
    rcases hm with ((h | h) | h) | h
    · exact Board.get_jumps_safe b _ _ (hdm player) 1 (-1) (Or.inl rfl) (Or.inr rfl) m h
    · exact Board.get_jumps_safe b _ _ (hdm player) 1 1 (Or.inl rfl) (Or.inl rfl) m h
    · exact Board.get_jumps_safe b _ _ (hum player) (-1) (-1) (Or.inr rfl) (Or.inr rfl) m h
    · exact Board.get_jumps_safe b _ _ (hum player) (-1) 1 (Or.inr rfl) (Or.inl rfl) m h

/-- A board whose occupancies satisfy the claim's stated hypotheses but whose
king bitboard holds a bit on a light cell, (0,2). -/
def wrapBoard : Board := ⟨⟨⟨0⟩, ⟨65536⟩⟩, ⟨⟨0⟩, ⟨0⟩⟩⟩

/-- **C1 counterexample**: with only the occupancy bitboards constrained (as the
claim states), a king bit on a light cell makes `normal_moves` emit a move
whose destination x-coordinate has wrapped to 2^32 - 1, far outside the grid. -/
theorem c1_counterexample :
    (wrapBoard.player1.all.data &&& wrapBoard.player2.all.data = 0
      ∧ BitGrid.subset wrapBoard.player1.all (BitGrid.new_from_mask BOARD_MASK)
      ∧ BitGrid.subset wrapBoard.player2.all (BitGrid.new_from_mask BOARD_MASK))
    ∧ Move.mk ⟨0, 2⟩ ⟨4294967295, 1⟩ ∈ wrapBoard.normal_moves Player1
    ∧ ¬((Move.mk ⟨0, 2⟩ ⟨4294967295, 1⟩).toPos.x < 8) := by decide

/-- Witness for the amended C1 at the initial board and its move (1,2) → (0,3). -/
theorem c1_witness :
    (1 : Nat) < 8 ∧ (2 : Nat) < 8 ∧ (0 : Nat) < 8 ∧ (3 : Nat) < 8 ∧
      ¬((0 : Nat) % 2 = (3 : Nat) % 2) ∧
      Board.new.player1.all.get_at_cell 0 3 = false ∧
      Board.new.player2.all.get_at_cell 0 3 = false :=
  c1_moves_stay_on_empty_dark_cells Board.new (by decide) (by decide) (by decide) (by decide)
    (by decide) Player1 (Move.mk ⟨1, 2⟩ ⟨0, 3⟩) (Or.inl (by decide))

/-! ## Claims C3 and C4: the generators match the spec formulation -/

/-- One direction pass of `normalMoves` as the spec words it: the set
`emptyCells.shift(-dy,-dx).intersect(moversBitboard)`, one `Move` per set cell
with `to = origin + (dx, dy)`, cells enumerated in ascending index order. -/
def specDirectionMoves (b : Board) (movers : BitGrid) (dx dy : Int) : List Move :=
  (((List.range 64).filter (fun i =>
      ((b.empty_squares.shift (-dy) (-dx)).intersect movers).data.testBit i)).map
    BitGrid.cell_at_index).map (fun c => Move.new ⟨c.1, c.2⟩ (dx, dy))

/-- Spec-side `normalMoves`: the four directional result sets concatenated in
the order down-left, down-right, up-left, up-right; non-kings only get their
forward directions via the movers bitboard selection. -/
def specNormalMoves (b : Board) (player : Player) : List Move :=
  specDirectionMoves b (b.downward_moving player) (-1) 1
    ++ specDirectionMoves b (b.downward_moving player) 1 1
    ++ specDirectionMoves b (b.upward_moving player) (-1) (-1)
    ++ specDirectionMoves b (b.upward_moving player) 1 (-1)

/-- One direction pass of `jumpMoves` as the spec words it:
`emptyCells.shift(-2dy,-2dx).intersect(opponentAll.shift(-dy,-dx)).intersect(movers)`,
one `Move` per set cell with `to = origin + (2dx, 2dy)`, ascending order. -/
def specJumpDirectionMoves (b : Board) (movers opponentAll : BitGrid) (dx dy : Int) : List Move :=
  (((List.range 64).filter (fun i =>
      (((b.empty_squares.shift (-(2 * dy)) (-(2 * dx))).intersect
          (opponentAll.shift (-dy) (-dx))).intersect movers).data.testBit i)).map
    BitGrid.cell_at_index).map (fun c => Move.new ⟨c.1, c.2⟩ (2 * dx, 2 * dy))

/-- Spec-side `jumpMoves`, directions concatenated as for `normalMoves`. -/
def specJumpMoves (b : Board) (player : Player) : List Move :=
  let opponentAll :=
    match player with
    | Player1 => b.player2.all
    | Player2 => b.player1.all
  specJumpDirectionMoves b (b.downward_moving player) opponentAll (-1) 1
    ++ specJumpDirectionMoves b (b.downward_moving player) opponentAll 1 1
    ++ specJumpDirectionMoves b (b.upward_moving player) opponentAll (-1) (-1)
    ++ specJumpDirectionMoves b (b.upward_moving player) opponentAll 1 (-1)

/-- One direction of the source normal-move generator equals the spec pass. -/
theorem get_moves_eq_specDirection (b : Board) (moving : BitGrid) (vert horz : Int) :
    b.get_moves moving vert horz = specDirectionMoves b moving horz vert := by
  have hlt : ((b.empty_squares.shift (-vert) (-horz)).intersect moving).data < 2 ^ 64 := by
    have h1 : (b.empty_squares.shift (-vert) (-horz)).data &&& moving.data
        ≤ (b.empty_squares.shift (-vert) (-horz)).data := Nat.and_le_left
    have h2 := BitGrid.shift_lt b.empty_squares (Board.empty_squares_lt b) (-vert) (-horz)
    show (b.empty_squares.shift (-vert) (-horz)).data &&& moving.data < 2 ^ 64
    omega
  unfold Board.get_moves specDirectionMoves BitGrid.iter_set_cells
  rw [BitGrid.iter_set_indexes_eq_filter _ hlt]

/-- **C3**: `normal_moves` yields exactly one move per cell of the spec's
per-direction bitboard formula, with the four directional sets concatenated
down-left, down-right, up-left, up-right, each in ascending origin-index order
(the lowest-set-bit extraction enumerates set bits in ascending order). -/
theorem c3_normal_moves_eq_spec :
    ∀ (b : Board) (player : Player), b.normal_moves player = specNormalMoves b player := by
  intro b player
  simp only [Board.normal_moves]
  unfold specNormalMoves
  rw [get_moves_eq_specDirection, get_moves_eq_specDirection, get_moves_eq_specDirection,
    get_moves_eq_specDirection]

/-- One direction of the source jump generator equals the spec pass. -/
theorem get_jumps_eq_specDirection (b : Board) (moving opponents : BitGrid) (vert horz : Int) :
    b.get_jumps moving opponents vert horz = specJumpDirectionMoves b moving opponents horz vert := by
  have e1 : (-vert) * 2 = -(2 * vert) := by ring
  have e2 : (-horz) * 2 = -(2 * horz) := by ring
  have e3 : horz * 2 = 2 * horz := by ring
  have e4 : vert * 2 = 2 * vert := by ring
  have hlt : (((b.empty_squares.shift (-(2 * vert)) (-(2 * horz))).intersect
      (opponents.shift (-vert) (-horz))).intersect moving).data < 2 ^ 64 := by
    have h1 : ((b.empty_squares.shift (-(2 * vert)) (-(2 * horz))).data
        &&& (opponents.shift (-vert) (-horz)).data) &&& moving.data
        ≤ (b.empty_squares.shift (-(2 * vert)) (-(2 * horz))).data
          &&& (opponents.shift (-vert) (-horz)).data := Nat.and_le_left
    have h2 : (b.empty_squares.shift (-(2 * vert)) (-(2 * horz))).data
        &&& (opponents.shift (-vert) (-horz)).data
        ≤ (b.empty_squares.shift (-(2 * vert)) (-(2 * horz))).data := Nat.and_le_left
    have h3 := BitGrid.shift_lt b.empty_squares (Board.empty_squares_lt b)
      (-(2 * vert)) (-(2 * horz))
    show ((b.empty_squares.shift (-(2 * vert)) (-(2 * horz))).data
        &&& (opponents.shift (-vert) (-horz)).data) &&& moving.data < 2 ^ 64
    omega
  unfold Board.get_jumps specJumpDirectionMoves BitGrid.iter_set_cells
  rw [e1, e2, e3, e4, BitGrid.iter_set_indexes_eq_filter _ hlt]

/-- The Board that `new_with_pieces` builds for the concrete jump scenario of
the spec: a Player1 king at (0,5), Player2 men at (1,4) and (1,6). -/
def jumpScenarioBoard : Board := ⟨⟨⟨2 ^ 40⟩, ⟨2 ^ 40⟩⟩, ⟨⟨2 ^ 33 + 2 ^ 49⟩, ⟨0⟩⟩⟩

/-- **C4**: `jump_moves` yields exactly one move per cell of the spec's
per-direction jump formula (landing two steps away empty, intermediate cell
held by an opponent, origin allowed to move that way), and in the concrete
scenario of a Player1 king at (0,5) with opponent men at (1,4) and (1,6) both
jumps (0,5) → (2,3) and (0,5) → (2,7) are produced. -/
theorem c4_jump_moves_eq_spec :
    (∀ (b : Board) (player : Player), b.jump_moves player = specJumpMoves b player) ∧
    (∀ b : Board,
      Board.new_with_pieces [⟨⟨0, 5⟩, Player1, true⟩, ⟨⟨1, 4⟩, Player2, false⟩,
        ⟨⟨1, 6⟩, Player2, false⟩] = Option.some b →
      Move.mk ⟨0, 5⟩ ⟨2, 3⟩ ∈ b.jump_moves Player1 ∧
        Move.mk ⟨0, 5⟩ ⟨2, 7⟩ ∈ b.jump_moves Player1) := by
  constructor
  · intro b player
    simp only [Board.jump_moves, specJumpMoves]
    rw [get_jumps_eq_specDirection, get_jumps_eq_specDirection, get_jumps_eq_specDirection,
      get_jumps_eq_specDirection]
  · intro b hb
    have hb0 : Board.new_with_pieces [⟨⟨0, 5⟩, Player1, true⟩, ⟨⟨1, 4⟩, Player2, false⟩,
        ⟨⟨1, 6⟩, Player2, false⟩] = Option.some jumpScenarioBoard := by decide
    rw [hb0] at hb
    injection hb with hbe
    subst hbe
    decide

/-- Witness for C4's scenario clause at the concrete scenario board. -/
theorem c4_witness : Move.mk ⟨0, 5⟩ ⟨2, 3⟩ ∈ Board.jump_moves jumpScenarioBoard Player1 :=
  (c4_jump_moves_eq_spec.2 jumpScenarioBoard (by decide)).1

/-! ## Reading and writing single cells -/

/-- Bit reading of `set_at_index _ true`. -/
theorem BitGrid.testBit_set_true (g : BitGrid) (idx j : Nat) :
    (g.set_at_index idx true).data.testBit j
      = (g.data.testBit j || (decide (j < 64) && decide (idx = j))) := by
  show (g.data ||| BitGrid.index_mask idx).testBit j = _
  rw [Nat.testBit_lor, BitGrid.testBit_index_mask]

/-- Bit reading of `set_at_index _ false`. -/
theorem BitGrid.testBit_set_false (g : BitGrid) (idx j : Nat) :
    (g.set_at_index idx false).data.testBit j
      = (g.data.testBit j && (decide (j < 64) && !decide (idx = j))) := by
  show (g.data &&& (BitGrid.index_mask idx ^^^ (U64_SIZE - 1))).testBit j = _
  unfold U64_SIZE
  rw [Nat.testBit_land, Nat.testBit_xor, BitGrid.testBit_index_mask,
    Nat.testBit_two_pow_sub_one]
  by_cases h64 : j < 64 <;> by_cases hij : idx = j <;> simp [h64, hij]

/-- Bit reading of `set_at_cell _ _ true`. -/
theorem BitGrid.testBit_set_at_cell_true (g : BitGrid) (x y j : Nat) :
    ((g.set_at_cell x y true).data.testBit j)
      = (g.data.testBit j || (decide (j < 64) && decide (BitGrid.index_of_cell x y = j))) :=
  BitGrid.testBit_set_true g _ j

/-- Bit reading of `set_at_cell _ _ false`. -/
theorem BitGrid.testBit_set_at_cell_false (g : BitGrid) (x y j : Nat) :
    ((g.set_at_cell x y false).data.testBit j)
      = (g.data.testBit j && (decide (j < 64) && !decide (BitGrid.index_of_cell x y = j))) :=
  BitGrid.testBit_set_false g _ j

/-- A false `get_at_index` is exactly an empty intersection with the mask. -/
theorem BitGrid.get_at_index_eq_false_iff (g : BitGrid) (i : Nat) :
    g.get_at_index i = false ↔ g.data &&& BitGrid.index_mask i = 0 := by
  simp [BitGrid.get_at_index]

/-- If the read of position `i` is false, the word bit behind any index of the
mask of `i` is clear. -/
theorem BitGrid.testBit_false_of_get_false (g : BitGrid) (i j : Nat)
    (h : g.get_at_index i = false) (hm : (BitGrid.index_mask i).testBit j = true) :
    g.data.testBit j = false := by
  rw [BitGrid.get_at_index_eq_false_iff] at h
  have h2 := congrArg (fun n => n.testBit j) h
  simp only [Nat.testBit_land, Nat.zero_testBit] at h2
  cases hg : g.data.testBit j
  · rfl
  · rw [hg, hm] at h2
    simp at h2

/-- Reading a cell after writing a cell, both in range. -/
theorem BitGrid.get_set_at_cell (g : BitGrid) (x y a c : Nat) (v : Bool)
    (hx : x < 8) (hy : y < 8) (ha : a < 8) (hc : c < 8) :
    (g.set_at_cell x y v).get_at_cell a c
      = if a = x ∧ c = y then v else g.get_at_cell a c := by
  have h64 : a + c * 8 < 64 := by omega
  have hidx : BitGrid.index_of_cell x y = x + y * 8 := rfl
  by_cases hax : a = x ∧ c = y
  · obtain ⟨rfl, rfl⟩ := hax
    rw [if_pos ⟨rfl, rfl⟩]
    cases v
    · rw [BitGrid.get_at_cell_eq_testBit _ _ _ hx hy, BitGrid.testBit_set_at_cell_false, hidx]
      simp [h64]
    · rw [BitGrid.get_at_cell_eq_testBit _ _ _ hx hy, BitGrid.testBit_set_at_cell_true, hidx]
      simp [h64]
  · rw [if_neg hax]
    have hne : ¬(BitGrid.index_of_cell x y = a + c * 8) := by
      rw [hidx]
      omega
    cases v
    · rw [BitGrid.get_at_cell_eq_testBit _ _ _ ha hc,
        BitGrid.get_at_cell_eq_testBit g a c ha hc, BitGrid.testBit_set_at_cell_false]
      simp [hne, h64]
    · rw [BitGrid.get_at_cell_eq_testBit _ _ _ ha hc,
        BitGrid.get_at_cell_eq_testBit g a c ha hc, BitGrid.testBit_set_at_cell_true]
      simp [hne]

/-! ## Claim C6: move_piece never touches the other player's boards -/

/-- **C6**: for every board and move (jumps included), `move_piece` leaves the
other player's `PlayerBoard` (occupancy and kings alike) exactly as it was; in
particular it never removes a jumped-over opponent piece. -/
theorem c6_move_piece_frame :
    ∀ (b : Board) (m : Move),
      (b.move_piece Player1 m).player2 = b.player2 ∧
        (b.move_piece Player2 m).player1 = b.player1 :=
  fun _ _ => ⟨rfl, rfl⟩

/-! ## Claim C8: the initial board -/

/-- **C8**: `Board::new` puts Player1 men exactly on the dark cells of rows
0, 1, 2 and Player2 men exactly on the dark cells of rows 5, 6, 7, no kings;
on that board Player1 has exactly 7 normal moves and neither player has a
jump move. -/
theorem c8_initial_board :
    (∀ x, x < 8 → ∀ y, y < 8 →
      Board.new.player1.all.get_at_cell x y = (decide (x % 2 ≠ y % 2) && decide (y < 3)) ∧
      Board.new.player2.all.get_at_cell x y = (decide (x % 2 ≠ y % 2) && decide (5 ≤ y))) ∧
    Board.new.player1.kings.none = true ∧ Board.new.player2.kings.none = true ∧
    (Board.new.normal_moves Player1).length = 7 ∧
    Board.new.jump_moves Player1 = [] ∧ Board.new.jump_moves Player2 = [] := by
  decide

/-- Witness for C8 at the cell (1, 0). -/
theorem c8_witness :
    Board.new.player1.all.get_at_cell 1 0
        = (decide ((1 : Nat) % 2 ≠ (0 : Nat) % 2) && decide ((0 : Nat) < 3)) ∧
      Board.new.player2.all.get_at_cell 1 0
        = (decide ((1 : Nat) % 2 ≠ (0 : Nat) % 2) && decide (5 ≤ (0 : Nat))) :=
  c8_initial_board.1 1 (by decide) 0 (by decide)

/-! ## Claims C2 and C10: duplicate positions in new_with_pieces -/

/-- **C2 counterexample**: two coincident pieces of different players do not
trap `new_with_pieces`; the construction completes. -/
theorem c2_counterexample :
    ¬(Board.new_with_pieces [⟨⟨1, 2⟩, Player1, false⟩, ⟨⟨1, 2⟩, Player2, false⟩]
      = Option.none) := by
  decide

/-- **C10**: for an input with two pieces at the same position owned by
different players, construction does not trap: it returns a board with the
cell set in both players' occupancy bitboards, breaking disjointness silently. -/
theorem c10_cross_player_duplicate_silently_accepted :
    Board.new_with_pieces [⟨⟨1, 2⟩, Player1, false⟩, ⟨⟨1, 2⟩, Player2, false⟩]
      = Option.some ⟨⟨⟨2 ^ 17⟩, ⟨0⟩⟩, ⟨⟨2 ^ 17⟩, ⟨0⟩⟩⟩ ∧
    (⟨⟨⟨2 ^ 17⟩, ⟨0⟩⟩, ⟨⟨2 ^ 17⟩, ⟨0⟩⟩⟩ : Board).player1.all.get_at_cell 1 2 = true ∧
    (⟨⟨⟨2 ^ 17⟩, ⟨0⟩⟩, ⟨⟨2 ^ 17⟩, ⟨0⟩⟩⟩ : Board).player2.all.get_at_cell 1 2 = true ∧
    ¬((⟨⟨⟨2 ^ 17⟩, ⟨0⟩⟩, ⟨⟨2 ^ 17⟩, ⟨0⟩⟩⟩ : Board).player1.all.data
        &&& (⟨⟨⟨2 ^ 17⟩, ⟨0⟩⟩, ⟨⟨2 ^ 17⟩, ⟨0⟩⟩⟩ : Board).player2.all.data = 0) := by
  decide

/-! ## The construction loop of new_with_pieces -/

/-- One `new_with_pieces` step only ever turns occupancy bits on. -/
theorem Board.addPiece_all_mono {b b1 : Board} {p : Piece}
    (h : Board.addPiece b p = Option.some b1) (pl : Player) (i : Nat)
    (hbit : (b.player_board pl).all.data.testBit i = true) :
    (b1.player_board pl).all.data.testBit i = true := by
  simp only [Board.addPiece] at h
  split at h
  · exact absurd h (by simp)
  · injection h with h1
    subst h1
    cases pl <;> cases hpp : p.player <;>
      simp only [Board.set_player_board, Board.player_board] at hbit ⊢ <;>
      first
        | exact hbit
        | (rw [BitGrid.testBit_set_at_cell_true]; simp [hbit])

/-- The whole construction loop only ever turns occupancy bits on. -/
theorem Board.newWithPiecesGo_all_mono :
    ∀ (ps : List Piece) (b b' : Board), Board.newWithPiecesGo b ps = Option.some b' →
      ∀ (pl : Player) (i : Nat), (b.player_board pl).all.data.testBit i = true →
        (b'.player_board pl).all.data.testBit i = true := by
  intro ps
  induction ps with
  | nil =>
    intro b b' h pl i hbit
    rw [Board.newWithPiecesGo] at h
    injection h with h1
    subst h1
    exact hbit
  | cons p rest ih =>
    intro b b' h pl i hbit
    rw [Board.newWithPiecesGo] at h
    cases haddp : Board.addPiece b p with
    | none =>
      rw [haddp] at h
      exact absurd h (by simp)
    | some b1 =>
      rw [haddp] at h
      exact ih b1 b' h pl i (Board.addPiece_all_mono haddp pl i hbit)

/-- A successful `addPiece` records the piece in its player's occupancy. -/
theorem Board.addPiece_sets_bit {b b1 : Board} {p : Piece}
    (h : Board.addPiece b p = Option.some b1)
    (hx : p.position.x < 8) (hy : p.position.y < 8) :
    (b1.player_board p.player).all.get_at_cell p.position.x p.position.y = true := by
  simp only [Board.addPiece] at h
  split at h
  · exact absurd h (by simp)
  · injection h with h1
    subst h1
    cases hpp : p.player <;>
      simp only [Board.set_player_board, Board.player_board] <;>
      rw [BitGrid.get_set_at_cell _ _ _ _ _ _ hx hy hx hy] <;> simp

/-- Occupancy reads survive one `addPiece` step. -/
theorem Board.addPiece_get_mono {b b1 : Board} {p : Piece}
    (h : Board.addPiece b p = Option.some b1) (pl : Player) (x y : Nat)
    (hx : x < 8) (hy : y < 8)
    (hget : (b.player_board pl).all.get_at_cell x y = true) :
    (b1.player_board pl).all.get_at_cell x y = true := by
  rw [BitGrid.get_at_cell_eq_testBit _ _ _ hx hy] at hget ⊢
  exact Board.addPiece_all_mono h pl _ hget

/-- Once a player's occupancy holds the cell of some piece still to be
inserted, the loop inevitably traps. -/
theorem Board.newWithPiecesGo_none_of_get :
    ∀ (ps : List Piece) (b : Board) (q : Piece), q ∈ ps →
      q.position.x < 8 → q.position.y < 8 →
      (b.player_board q.player).all.get_at_cell q.position.x q.position.y = true →
      Board.newWithPiecesGo b ps = Option.none := by
  intro ps
  induction ps with
  | nil => intro b q hq; exact absurd hq (List.not_mem_nil q)
  | cons p rest ih =>
    intro b q hq hqx hqy hget
    rw [Board.newWithPiecesGo]
    cases haddp : Board.addPiece b p with
    | none => rfl
    | some b1 =>
      rcases List.mem_cons.mp hq with rfl | hqrest
      · exfalso
        simp only [Board.addPiece] at haddp
        split at haddp
        · exact absurd haddp (by simp)
        · next hcond => exact hcond hget
      · exact ih b1 q hqrest hqx hqy (Board.addPiece_get_mono haddp q.player _ _ hqx hqy hget)

/-! ## Claim C2: duplicate positions trap -/

/-- **C2 (amended)**: `new_with_pieces` traps (returns `none`, the embedded
panic) whenever the input contains two pieces of the *same player* sharing an
in-range position; coincident pieces of different players are not detected. -/
theorem c2_same_player_duplicate_traps :
    ∀ (l1 : List Piece) (p : Piece) (l2 : List Piece) (q : Piece) (l3 : List Piece),
      p.player = q.player → p.position = q.position →
      p.position.x < 8 → p.position.y < 8 →
      Board.new_with_pieces (l1 ++ p :: l2 ++ q :: l3) = Option.none := by
  intro l1 p l2 q l3 hpl hpos hx hy
  have hqx : q.position.x < 8 := by rw [← hpos]; exact hx
  have hqy : q.position.y < 8 := by rw [← hpos]; exact hy
  rw [show (l1 ++ p :: l2 ++ q :: l3) = l1 ++ (p :: (l2 ++ (q :: l3))) by simp]
  suffices h : ∀ b : Board, Board.newWithPiecesGo b (l1 ++ (p :: (l2 ++ (q :: l3))))
      = Option.none
    from h _
  induction l1 with
  | nil =>
    intro b
    rw [List.nil_append, Board.newWithPiecesGo]
    cases haddp : Board.addPiece b p with
    | none => rfl
    | some b1 =>
      have hset := Board.addPiece_sets_bit haddp hx hy
      rw [hpl, hpos] at hset
      exact Board.newWithPiecesGo_none_of_get (l2 ++ (q :: l3)) b1 q (by simp) hqx hqy hset
  | cons r rest ih =>
    intro b
    rw [List.cons_append, Board.newWithPiecesGo]
    cases haddp : Board.addPiece b r with
    | none => rfl
    | some b1 => exact ih b1

/-- Witness for the amended C2: two Player1 pieces on (1,2) trap. -/
theorem c2_witness :
    Board.new_with_pieces [(⟨⟨1, 2⟩, Player1, false⟩ : Piece), ⟨⟨1, 2⟩, Player1, true⟩]
      = Option.none :=
  c2_same_player_duplicate_traps [] ⟨⟨1, 2⟩, Player1, false⟩ [] ⟨⟨1, 2⟩, Player1, true⟩ []
    rfl rfl (by decide) (by decide)

/-! ## Claim C7: winner -/

/-- When every piece is Player1's, the loop never touches Player2's board. -/
theorem Board.newWithPiecesGo_player2_eq :
    ∀ (ps : List Piece) (b b' : Board), (∀ p ∈ ps, p.player = Player1) →
      Board.newWithPiecesGo b ps = Option.some b' → b'.player2 = b.player2 := by
  intro ps
  induction ps with
  | nil =>
    intro b b' _ h
    rw [Board.newWithPiecesGo] at h
    injection h with h1
    subst h1
    rfl
  | cons p rest ih =>
    intro b b' hall h
    rw [Board.newWithPiecesGo] at h
    cases haddp : Board.addPiece b p with
    | none =>
      rw [haddp] at h
      exact absurd h (by simp)
    | some b1 =>
      rw [haddp] at h
      have hb1 : b1.player2 = b.player2 := by
        simp only [Board.addPiece] at haddp
        split at haddp
        · exact absurd haddp (by simp)
        · injection haddp with h1
          subst h1
          rw [hall p (List.mem_cons_self p rest)]
          rfl
      rw [ih b1 b' (fun r hr => hall r (List.mem_cons_of_mem p hr)) h, hb1]

/-- **C7**: `winner` returns Player2 iff Player1's occupancy is empty (checked
first, so a doubly-empty board yields Player2), returns Player1 iff Player1's
occupancy is non-empty and Player2's is empty, and `none` otherwise; a board
built from a non-empty list of Player1 pieces yields Player1, and the initial
board has no winner. -/
theorem c7_winner_spec :
    (∀ b : Board,
      (b.winner = Option.some Player2 ↔ b.player1.all.none = true) ∧
      (b.winner = Option.some Player1 ↔
        (b.player1.all.none = false ∧ b.player2.all.none = true)) ∧
      (b.winner = Option.none ↔
        (b.player1.all.none = false ∧ b.player2.all.none = false))) ∧
    (∀ ps : List Piece, ps ≠ [] → (∀ p ∈ ps, p.player = Player1) →
      (∀ p ∈ ps, p.position.x < 8 ∧ p.position.y < 8) →
      ∀ b : Board, Board.new_with_pieces ps = Option.some b →
        b.winner = Option.some Player1) ∧
    Board.new.winner = Option.none := by
  refine ⟨?_, ?_, by decide⟩
  · intro b
    unfold Board.winner
    by_cases h1 : b.player1.all.none <;> by_cases h2 : b.player2.all.none <;>
      simp [h1, h2]
  · intro ps hne hall hrange b h
    cases ps with
    | nil => exact absurd rfl hne
    | cons p rest =>
      unfold Board.new_with_pieces at h
      rw [Board.newWithPiecesGo] at h
      cases haddp : Board.addPiece _ p with
      | none =>
        rw [haddp] at h
        exact absurd h (by simp)
      | some b1 =>
        rw [haddp] at h
        have hx := (hrange p (List.mem_cons_self p rest)).1
        have hy := (hrange p (List.mem_cons_self p rest)).2
        have hset := Board.addPiece_sets_bit haddp hx hy
        have hp1 : p.player = Player1 := hall p (List.mem_cons_self p rest)
        rw [hp1] at hset
        rw [BitGrid.get_at_cell_eq_testBit _ _ _ hx hy] at hset
        have hmono : b.player1.all.data.testBit
            (p.position.x + p.position.y * 8) = true :=
          Board.newWithPiecesGo_all_mono rest b1 b h Player1 _ hset
        have h2eq : b.player2 = b1.player2 :=
          Board.newWithPiecesGo_player2_eq rest b1 b
            (fun r hr => hall r (List.mem_cons_of_mem p hr)) h
        have h2empty : b1.player2 = ⟨⟨0⟩, ⟨0⟩⟩ := by
          simp only [Board.addPiece] at haddp
          split at haddp
          · exact absurd haddp (by simp)
          · injection haddp with h1
            subst h1
            rw [hp1]
            rfl
        have hne1 : b.player1.all.none = false := by
          unfold BitGrid.none
          have hd : b.player1.all.data ≠ 0 := by
            intro h0
            rw [h0, Nat.zero_testBit] at hmono
            exact Bool.false_ne_true hmono
          simpa using hd
        have h2none : b.player2.all.none = true := by
          rw [h2eq, h2empty]
          rfl
        simp [Board.winner, hne1, h2none]

/-- Witness for C7's construction clause: a lone Player1 man gives Player1 the
win. -/
theorem c7_witness :
    Board.winner ⟨⟨⟨2 ^ 17⟩, ⟨0⟩⟩, ⟨⟨0⟩, ⟨0⟩⟩⟩ = Option.some Player1 :=
  c7_winner_spec.2.1 [⟨⟨1, 2⟩, Player1, false⟩] (by decide) (by decide) (by decide)
    ⟨⟨⟨2 ^ 17⟩, ⟨0⟩⟩, ⟨⟨0⟩, ⟨0⟩⟩⟩ (by decide)

/-! ## Claim C9: the kings-subset invariant -/

/-- The u64 width invariant every source bitboard has by type. -/
def BitGrid.wf (g : BitGrid) : Prop := g.data < U64_SIZE

instance (g : BitGrid) : Decidable g.wf :=
  inferInstanceAs (Decidable (g.data < U64_SIZE))

/-- A Board made of genuine u64 words. -/
def Board.wf (b : Board) : Prop :=
  b.player1.all.wf ∧ b.player1.kings.wf ∧ b.player2.all.wf ∧ b.player2.kings.wf

instance (b : Board) : Decidable b.wf :=
  inferInstanceAs (Decidable (b.player1.all.wf ∧ b.player1.kings.wf
    ∧ b.player2.all.wf ∧ b.player2.kings.wf))

/-- The PlayerBoard invariant of the spec, for both players: `kings ⊆ all`. -/
def kings_subset_all (b : Board) : Prop :=
  BitGrid.subset b.player1.kings b.player1.all ∧ BitGrid.subset b.player2.kings b.player2.all

instance (b : Board) : Decidable (kings_subset_all b) :=
  inferInstanceAs (Decidable (BitGrid.subset b.player1.kings b.player1.all
    ∧ BitGrid.subset b.player2.kings b.player2.all))

/-- Inserting a piece (king bit only together with the occupancy bit) keeps
`kings ⊆ all` at the bitboard level. -/
theorem BitGrid.subset_set_insert (k a : BitGrid) (x y : Nat) (king : Bool)
    (h : BitGrid.subset k a) :
    BitGrid.subset (if king then k.set_at_cell x y true else k)
      (a.set_at_cell x y true) := by
  cases king
  case false =>
    show BitGrid.subset k (a.set_at_cell x y true)
    rw [BitGrid.subset_testBit]
    intro j hj
    rw [BitGrid.testBit_set_at_cell_true, BitGrid.subset_testBit.mp h j hj]
    rfl
  case true =>
    show BitGrid.subset (k.set_at_cell x y true) (a.set_at_cell x y true)
    rw [BitGrid.subset_testBit]
    intro j hj
    rw [BitGrid.testBit_set_at_cell_true] at hj ⊢
    rcases (Bool.or_eq_true _ _).mp hj with hh | hh
    · rw [BitGrid.subset_testBit.mp h j hh]
      rfl
    · rw [hh]
      simp

/-- One `addPiece` step preserves `kings ⊆ all`. -/
theorem Board.addPiece_kings_subset {b b1 : Board} {p : Piece}
    (hk : kings_subset_all b) (h : Board.addPiece b p = Option.some b1) :
    kings_subset_all b1 := by
  simp only [Board.addPiece] at h
  split at h
  · exact absurd h (by simp)
  · injection h with h1
    subst h1
    cases hpp : p.player
    case Player1 =>
      exact ⟨BitGrid.subset_set_insert _ _ _ _ _ hk.1, hk.2⟩
    case Player2 =>
      exact ⟨hk.1, BitGrid.subset_set_insert _ _ _ _ _ hk.2⟩

/-- The whole construction loop preserves `kings ⊆ all`. -/
theorem Board.newWithPiecesGo_kings_subset :
    ∀ (ps : List Piece) (b b' : Board), kings_subset_all b →
      Board.newWithPiecesGo b ps = Option.some b' → kings_subset_all b' := by
  intro ps
  induction ps with
  | nil =>
    intro b b' hk h
    rw [Board.newWithPiecesGo] at h
    injection h with h1
    subst h1
    exact hk
  | cons p rest ih =>
    intro b b' hk h
    rw [Board.newWithPiecesGo] at h
    cases haddp : Board.addPiece b p with
    | none =>
      rw [haddp] at h
      exact absurd h (by simp)
    | some b1 =>
      rw [haddp] at h
      exact ih b1 b' (Board.addPiece_kings_subset hk haddp) h

/-- Moving (and possibly crowning) a piece preserves `kings ⊆ all` at the single
PlayerBoard level, for any move, legal or not. -/
theorem PlayerBoard.move_kings_subset (pb : PlayerBoard) (fx fy tx ty : Nat) (cond : Bool)
    (hwk : pb.kings.wf) (hsub : BitGrid.subset pb.kings pb.all)
    (hget : pb.kings.get_at_cell fx fy = true → cond = true) :
    BitGrid.subset
      (if cond then
        (pb.kings.set_at_cell fx fy false).set_at_cell tx ty true
      else pb.kings)
      ((pb.all.set_at_cell fx fy false).set_at_cell tx ty true) := by
  split
  case isTrue hcond =>
    rw [BitGrid.subset_testBit]
    intro j hj
    rw [BitGrid.testBit_set_at_cell_true, BitGrid.testBit_set_at_cell_false] at hj
    rw [BitGrid.testBit_set_at_cell_true, BitGrid.testBit_set_at_cell_false]
    rcases (Bool.or_eq_true _ _).mp hj with hh | hh
    · obtain ⟨hkj, hmf⟩ := (Bool.and_eq_true _ _).mp hh
      rw [BitGrid.subset_testBit.mp hsub j hkj, hmf]
      rfl
    · rw [hh]
      simp
  case isFalse hcond =>
    rw [BitGrid.subset_testBit]
    intro j hj
    rw [BitGrid.testBit_set_at_cell_true, BitGrid.testBit_set_at_cell_false]
    have hj64 : j < 64 := testBit_true_lt hwk hj
    by_cases heqf : BitGrid.index_of_cell fx fy = j
    · exfalso
      have hgetf : pb.kings.get_at_cell fx fy = false := by
        cases hg : pb.kings.get_at_cell fx fy
        · rfl
        · exact absurd (hget hg) hcond
      have hmt : (BitGrid.index_mask (BitGrid.index_of_cell fx fy)).testBit j = true := by
        rw [BitGrid.testBit_index_mask]
        simp [hj64, heqf]
      have hzero := BitGrid.testBit_false_of_get_false pb.kings _ j hgetf hmt
      rw [hzero] at hj
      exact Bool.false_ne_true hj
    · rw [BitGrid.subset_testBit.mp hsub j hj]
      simp [hj64, heqf]

/-- `move_piece` preserves `kings ⊆ all` for every player and move. -/
theorem Board.move_piece_kings_subset (b : Board) (player : Player) (m : Move)
    (hwf : b.wf) (hk : kings_subset_all b) :
    kings_subset_all (b.move_piece player m) := by
  obtain ⟨hw1a, hw1k, hw2a, hw2k⟩ := hwf
  cases player
  case Player1 =>
    refine ⟨?_, hk.2⟩
    show BitGrid.subset
      (if b.player1.kings.get_at_cell m.fromPos.x m.fromPos.y
          || (Player1 == Player1 && m.toPos.y == BOARD_HEIGHT - 1)
          || (Player1 == Player2 && m.toPos.y == 0) then
        (b.player1.kings.set_at_cell m.fromPos.x m.fromPos.y false).set_at_cell
          m.toPos.x m.toPos.y true
      else b.player1.kings)
      ((b.player1.all.set_at_cell m.fromPos.x m.fromPos.y false).set_at_cell
        m.toPos.x m.toPos.y true)
    exact PlayerBoard.move_kings_subset b.player1 _ _ _ _ _ hw1k hk.1
      (fun hg => by rw [hg]; rfl)
  case Player2 =>
    refine ⟨hk.1, ?_⟩
    show BitGrid.subset
      (if b.player2.kings.get_at_cell m.fromPos.x m.fromPos.y
          || (Player2 == Player1 && m.toPos.y == BOARD_HEIGHT - 1)
          || (Player2 == Player2 && m.toPos.y == 0) then
        (b.player2.kings.set_at_cell m.fromPos.x m.fromPos.y false).set_at_cell
          m.toPos.x m.toPos.y true
      else b.player2.kings)
      ((b.player2.all.set_at_cell m.fromPos.x m.fromPos.y false).set_at_cell
        m.toPos.x m.toPos.y true)
    exact PlayerBoard.move_kings_subset b.player2 _ _ _ _ _ hw2k hk.2
      (fun hg => by rw [hg]; rfl)

/-- **C9**: `kings ⊆ all` holds for both players on `Board::new`, on every
board returned by `new_with_pieces`, and is preserved by `move_piece` for
every player and every (even illegal) move on a u64-width board satisfying
the invariant. -/
theorem c9_kings_subset_all_invariant :
    kings_subset_all Board.new ∧
    (∀ (ps : List Piece) (b : Board), Board.new_with_pieces ps = Option.some b →
      kings_subset_all b) ∧
    (∀ (b : Board) (player : Player) (m : Move), b.wf → kings_subset_all b →
      kings_subset_all (b.move_piece player m)) := by
  refine ⟨by decide, ?_, ?_⟩
  · intro ps b h
    exact Board.newWithPiecesGo_kings_subset ps _ b (by decide) h
  · intro b player m hwf hk
    exact Board.move_piece_kings_subset b player m hwf hk

/-- Witness for C9: a move on the initial board keeps the invariant. -/
theorem c9_witness :
    kings_subset_all (Board.move_piece Board.new Player1 (Move.mk ⟨1, 2⟩ ⟨2, 3⟩)) :=
  c9_kings_subset_all_invariant.2.2 Board.new Player1 (Move.mk ⟨1, 2⟩ ⟨2, 3⟩)
    (by decide) (by decide)

/-! ## Claim C5: move_piece and promotion -/

/-- A legal-looking board: Player1 men at (1,2) and a Player1 king at (2,3).
The move (1,2) → (2,3) is illegal (own piece on the target), which the claim
does not exclude. -/
def selfKingBoard : Board := ⟨⟨⟨2 ^ 17 + 2 ^ 26⟩, ⟨2 ^ 26⟩⟩, ⟨⟨0⟩, ⟨0⟩⟩⟩

/-- **C5 counterexample**: the moved piece at (1,2) is not a king and (2,3) is
not Player1's promotion row, yet after `move_piece` the destination reports
`king == true`, because the stale king bit at the destination survives. -/
theorem c5_counterexample :
    selfKingBoard.player1.kings.get_at_cell 1 2 = false ∧
    ¬((3 : Nat) = BOARD_HEIGHT - 1) ∧
    (selfKingBoard.move_piece Player1 (Move.mk ⟨1, 2⟩ ⟨2, 3⟩)).piece_at ⟨2, 3⟩
      = Option.some ⟨⟨2, 3⟩, Player1, true⟩ := by
  decide

/-- The occupancy and king updates of `move_piece` at one PlayerBoard. -/
theorem PlayerBoard.move_spec (pb : PlayerBoard) (fx fy tx ty : Nat) (cond : Bool)
    (hfx : fx < 8) (hfy : fy < 8) (htx : tx < 8) (hty : ty < 8)
    (hne : ¬(fx = tx ∧ fy = ty))
    (hek : pb.kings.get_at_cell tx ty = false)
    (hgetc : cond = false → pb.kings.get_at_cell fx fy = false) :
    ((pb.all.set_at_cell fx fy false).set_at_cell tx ty true).get_at_cell fx fy = false ∧
    ((pb.all.set_at_cell fx fy false).set_at_cell tx ty true).get_at_cell tx ty = true ∧
    (if cond then (pb.kings.set_at_cell fx fy false).set_at_cell tx ty true
      else pb.kings).get_at_cell fx fy = false ∧
    (if cond then (pb.kings.set_at_cell fx fy false).set_at_cell tx ty true
      else pb.kings).get_at_cell tx ty = cond := by
  refine ⟨?_, ?_, ?_, ?_⟩
  · rw [BitGrid.get_set_at_cell _ _ _ _ _ _ htx hty hfx hfy, if_neg hne,
      BitGrid.get_set_at_cell _ _ _ _ _ _ hfx hfy hfx hfy, if_pos ⟨rfl, rfl⟩]
  · rw [BitGrid.get_set_at_cell _ _ _ _ _ _ htx hty htx hty, if_pos ⟨rfl, rfl⟩]
  · cases cond
    · show pb.kings.get_at_cell fx fy = false
      exact hgetc rfl
    · show ((pb.kings.set_at_cell fx fy false).set_at_cell tx ty true).get_at_cell fx fy
        = false
      rw [BitGrid.get_set_at_cell _ _ _ _ _ _ htx hty hfx hfy, if_neg hne,
        BitGrid.get_set_at_cell _ _ _ _ _ _ hfx hfy hfx hfy, if_pos ⟨rfl, rfl⟩]
  · cases cond
    · show pb.kings.get_at_cell tx ty = false
      exact hek
    · show ((pb.kings.set_at_cell fx fy false).set_at_cell tx ty true).get_at_cell tx ty
        = true
      rw [BitGrid.get_set_at_cell _ _ _ _ _ _ htx hty htx hty, if_pos ⟨rfl, rfl⟩]

/-- **C5 (amended)**: for an in-range move with distinct endpoints whose
destination is a fully empty cell of the prior board, `move_piece` clears
`from` and sets `to` in the player's occupancy, sets the king bit at `to`
exactly when the moved piece was a king or `to` lies on the promotion row
(row 7 for Player1, row 0 for Player2), and `piece_at(to)` then reports
exactly that king status. -/
theorem c5_move_piece_spec (b : Board) (player : Player) (m : Move)
    (hfx : m.fromPos.x < 8) (hfy : m.fromPos.y < 8)
    (htx : m.toPos.x < 8) (hty : m.toPos.y < 8)
    (hne : ¬(m.fromPos = m.toPos))
    (he1 : b.player1.all.get_at_cell m.toPos.x m.toPos.y = false)
    (he2 : b.player2.all.get_at_cell m.toPos.x m.toPos.y = false)
    (he1k : b.player1.kings.get_at_cell m.toPos.x m.toPos.y = false)
    (he2k : b.player2.kings.get_at_cell m.toPos.x m.toPos.y = false) :
    ((b.move_piece player m).player_board player).all.get_at_cell
        m.fromPos.x m.fromPos.y = false ∧
    ((b.move_piece player m).player_board player).all.get_at_cell
        m.toPos.x m.toPos.y = true ∧
    ((b.move_piece player m).player_board player).kings.get_at_cell
        m.fromPos.x m.fromPos.y = false ∧
    ((b.move_piece player m).player_board player).kings.get_at_cell
        m.toPos.x m.toPos.y
      = ((b.player_board player).kings.get_at_cell m.fromPos.x m.fromPos.y
          || (player == Player1 && m.toPos.y == BOARD_HEIGHT - 1)
          || (player == Player2 && m.toPos.y == 0)) ∧
    (b.move_piece player m).piece_at m.toPos
      = Option.some ⟨m.toPos, player,
          (b.player_board player).kings.get_at_cell m.fromPos.x m.fromPos.y
            || (player == Player1 && m.toPos.y == BOARD_HEIGHT - 1)
            || (player == Player2 && m.toPos.y == 0)⟩ := by
  obtain ⟨⟨fx, fy⟩, ⟨tx, ty⟩⟩ := m
  have hfx' : fx < 8 := hfx
  have hfy' : fy < 8 := hfy
  have htx' : tx < 8 := htx
  have hty' : ty < 8 := hty
  have he1' : b.player1.all.get_at_cell tx ty = false := he1
  have he2' : b.player2.all.get_at_cell tx ty = false := he2
  have he1k' : b.player1.kings.get_at_cell tx ty = false := he1k
  have he2k' : b.player2.kings.get_at_cell tx ty = false := he2k
  have hne' : ¬(fx = tx ∧ fy = ty) := by
    rintro ⟨rfl, rfl⟩
    exact hne rfl
  cases player
  case Player1 =>
    have hcondf : (b.player1.kings.get_at_cell fx fy
          || (Player1 == Player1 && ty == BOARD_HEIGHT - 1)
          || (Player1 == Player2 && ty == 0)) = false
        → b.player1.kings.get_at_cell fx fy = false := by
      intro hcf
      cases hg : b.player1.kings.get_at_cell fx fy
      · rfl
      · rw [hg] at hcf
        simp at hcf
    have hmain := PlayerBoard.move_spec b.player1 fx fy tx ty
      (b.player1.kings.get_at_cell fx fy
        || (Player1 == Player1 && ty == BOARD_HEIGHT - 1)
        || (Player1 == Player2 && ty == 0))
      hfx' hfy' htx' hty' hne' he1k' hcondf
    refine ⟨hmain.1, hmain.2.1, hmain.2.2.1, hmain.2.2.2, ?_⟩
    have hk_to : (b.move_piece Player1 (Move.mk ⟨fx, fy⟩ ⟨tx, ty⟩)).player1.kings.get_at_cell
        tx ty
        = (b.player1.kings.get_at_cell fx fy
          || (Player1 == Player1 && ty == BOARD_HEIGHT - 1)
          || (Player1 == Player2 && ty == 0)) := hmain.2.2.2
    have ha_to : (b.move_piece Player1 (Move.mk ⟨fx, fy⟩ ⟨tx, ty⟩)).player1.all.get_at_cell
        tx ty = true := hmain.2.1
    show (b.move_piece Player1 (Move.mk ⟨fx, fy⟩ ⟨tx, ty⟩)).piece_at ⟨tx, ty⟩
      = Option.some ⟨⟨tx, ty⟩, Player1,
          b.player1.kings.get_at_cell fx fy
            || (Player1 == Player1 && ty == BOARD_HEIGHT - 1)
            || (Player1 == Player2 && ty == 0)⟩
    cases hC : (b.player1.kings.get_at_cell fx fy
        || (Player1 == Player1 && ty == BOARD_HEIGHT - 1)
        || (Player1 == Player2 && ty == 0))
    · rw [hC] at hk_to
      simp only [Board.piece_at]
      rw [hk_to, ha_to]
      simp
    · rw [hC] at hk_to
      simp only [Board.piece_at]
      rw [hk_to]
      simp
  case Player2 =>
    have hcondf : (b.player2.kings.get_at_cell fx fy
          || (Player2 == Player1 && ty == BOARD_HEIGHT - 1)
          || (Player2 == Player2 && ty == 0)) = false
        → b.player2.kings.get_at_cell fx fy = false := by
      intro hcf
      cases hg : b.player2.kings.get_at_cell fx fy
      · rfl
      · rw [hg] at hcf
        simp at hcf
    have hmain := PlayerBoard.move_spec b.player2 fx fy tx ty
      (b.player2.kings.get_at_cell fx fy
        || (Player2 == Player1 && ty == BOARD_HEIGHT - 1)
        || (Player2 == Player2 && ty == 0))
      hfx' hfy' htx' hty' hne' he2k' hcondf
    refine ⟨hmain.1, hmain.2.1, hmain.2.2.1, hmain.2.2.2, ?_⟩
    have hframe : (b.move_piece Player2 (Move.mk ⟨fx, fy⟩ ⟨tx, ty⟩)).player1 = b.player1 := rfl
    have hk_to : (b.move_piece Player2 (Move.mk ⟨fx, fy⟩ ⟨tx, ty⟩)).player2.kings.get_at_cell
        tx ty
        = (b.player2.kings.get_at_cell fx fy
          || (Player2 == Player1 && ty == BOARD_HEIGHT - 1)
          || (Player2 == Player2 && ty == 0)) := hmain.2.2.2
    have ha_to : (b.move_piece Player2 (Move.mk ⟨fx, fy⟩ ⟨tx, ty⟩)).player2.all.get_at_cell
        tx ty = true := hmain.2.1
    show (b.move_piece Player2 (Move.mk ⟨fx, fy⟩ ⟨tx, ty⟩)).piece_at ⟨tx, ty⟩
      = Option.some ⟨⟨tx, ty⟩, Player2,
          b.player2.kings.get_at_cell fx fy
            || (Player2 == Player1 && ty == BOARD_HEIGHT - 1)
            || (Player2 == Player2 && ty == 0)⟩
    cases hC : (b.player2.kings.get_at_cell fx fy
        || (Player2 == Player1 && ty == BOARD_HEIGHT - 1)
        || (Player2 == Player2 && ty == 0))
    · rw [hC] at hk_to
      simp only [Board.piece_at]
      rw [hframe, he1k', he1', hk_to, ha_to]
      simp
    · rw [hC] at hk_to
      simp only [Board.piece_at]
      rw [hframe, he1k', he1', hk_to]
      simp

/-- Witness for the amended C5: the initial-board move (1,2) → (2,3). -/
theorem c5_witness :
    ((Board.new.move_piece Player1 (Move.mk ⟨1, 2⟩ ⟨2, 3⟩)).player_board Player1).all.get_at_cell
        1 2 = false ∧
    ((Board.new.move_piece Player1 (Move.mk ⟨1, 2⟩ ⟨2, 3⟩)).player_board Player1).all.get_at_cell
        2 3 = true ∧
    ((Board.new.move_piece Player1 (Move.mk ⟨1, 2⟩ ⟨2, 3⟩)).player_board
        Player1).kings.get_at_cell 1 2 = false ∧
    ((Board.new.move_piece Player1 (Move.mk ⟨1, 2⟩ ⟨2, 3⟩)).player_board
        Player1).kings.get_at_cell 2 3
      = ((Board.new.player_board Player1).kings.get_at_cell 1 2
          || (Player1 == Player1 && (3 : Nat) == BOARD_HEIGHT - 1)
          || (Player1 == Player2 && (3 : Nat) == 0)) ∧
    (Board.new.move_piece Player1 (Move.mk ⟨1, 2⟩ ⟨2, 3⟩)).piece_at ⟨2, 3⟩
      = Option.some ⟨⟨2, 3⟩, Player1,
          (Board.new.player_board Player1).kings.get_at_cell 1 2
            || (Player1 == Player1 && (3 : Nat) == BOARD_HEIGHT - 1)
            || (Player1 == Player2 && (3 : Nat) == 0)⟩ :=
  c5_move_piece_spec Board.new Player1 (Move.mk ⟨1, 2⟩ ⟨2, 3⟩) (by decide) (by decide)
    (by decide) (by decide) (by decide) (by decide) (by decide) (by decide) (by decide)
